import Mathlib

/-!
Shallow embedding of the `fft-ntt` repository (finite-field NTT in Rust):
the field engine `Fp` from `src/num/fp.rs` and the two transform engines
`DFT` (naive, `src/ntt/dft.rs`) and `FFT` (fast recursive, `src/ntt/fft.rs`).

Machine integers (`u64`) are modelled as `Nat` with an explicit `% 2^64`
wherever the source's `u64` operation can overflow (release-build wrapping
semantics): the product in `Fp::_mul` and the sum in `Fp::_add`.  For
moduli `p ≤ 2^32` the wrap is provably a no-op (all operands stay below
`2^32`), which is where the exact closed forms hold.  The exact
(unbounded-integer) square-and-multiply is kept separately as
`Fp.powMod`, used only to express the mathematically exact `a^b mod p`
at 64-bit scale.  Rust panics (`unwrap`, out-of-bounds indexing) are
modelled by `Option`: `none` is a panic, `some (Except.error e)` a returned
`Err(e)`, `some (Except.ok v)` a returned `Ok(v)`.
-/

deriving instance DecidableEq for Except

/-- Error string returned by `Fp::new` when the modulus is rejected. -/
def invalidModulusErr : String := "`p` should be prime number."

/-- Error string returned when the field lacks 2-adicity for the request. -/
def twoAdicityErr : String :=
  "The prime p does not have enough factors of 2 in (p - 1)."

/-- The field context, `struct Fp` of `src/num/fp.rs` (fields in source order). -/
structure Fp where
  p : Nat
  root : Nat
  rinv : Nat
  k : Nat
  m : Nat
deriving DecidableEq, Repr

namespace Fp

/-- Rust `Fp::normalize`: reduce `a` into `[0, p)`. -/
def normalize (p a : Nat) : Nat :=
  if a < p then a else a % p

/-- Rust `Fp::_add`: `a + b (mod p)`.  The `u64` sum `a + b` wraps modulo
`2^64` in a release build (possible once `p > 2^63`), hence the explicit
`% 2^64`. -/
def _add (p a b : Nat) : Nat :=
  let a := normalize p a
  let b := normalize p b
  let res := (a + b) % 2 ^ 64
  if res ≥ p then res - p else res

/-- Rust `Fp::_neg`: `-a (mod p)`, computed as `p - normalize a`. -/
def _neg (p a : Nat) : Nat :=
  let a := normalize p a
  p - a

/-- Rust `Fp::_sub`: `a - b (mod p)`. -/
def _sub (p a b : Nat) : Nat :=
  let a := normalize p a
  let b := normalize p b
  _add p a (_neg p b)

/-- Rust `Fp::_mul`: `a * b (mod p)`.  The `u64` product `a * b` wraps
modulo `2^64` in a release build (reachable once `p > 2^32`), hence the
explicit `% 2^64` before the reduction `% p`. -/
def _mul (p a b : Nat) : Nat :=
  let a := normalize p a
  let b := normalize p b
  a * b % 2 ^ 64 % p

/-- The wrapping `u64` multiplication of `Fp::_mul`, written out on its
own; it coincides with `_mul` and names the operation the overflow
analysis is about. -/
def _mulWrap (p a b : Nat) : Nat :=
  let a := normalize p a
  let b := normalize p b
  a * b % 2 ^ 64 % p

/-- The wrapping `u64` addition of `Fp::_add`, written out on its own; it
coincides with `_add` and names the operation the overflow analysis is
about. -/
def _addWrap (p a b : Nat) : Nat :=
  let a := normalize p a
  let b := normalize p b
  let res := (a + b) % 2 ^ 64
  if res ≥ p then res - p else res

/-- The `while b > 0` loop of Rust `Fp::_pow` (square-and-multiply): one
call performs the whole loop starting from state `(a, b, res)`.
`b % 2 = 1` is the source's `b & 1 == 1`, `b / 2` its `b >>= 1`. -/
def _powAux (p a b res : Nat) : Nat :=
  if h : b = 0 then res
  else
    _powAux p (_mul p a a) (b / 2) (if b % 2 = 1 then _mul p res a else res)
termination_by b
decreasing_by
  exact Nat.div_lt_self (Nat.pos_of_ne_zero h) (by omega)

/-- Rust `Fp::_pow`: `a ^ b (mod p)` by binary exponentiation. -/
def _pow (p a b : Nat) : Nat :=
  _powAux p (normalize p a) b 1

/-- Rust `Fp::_inv`: `a⁻¹ (mod p)` as `a^(p-2) mod p` (Fermat). -/
def _inv (p a : Nat) : Nat :=
  _pow p a (p - 2)

/-- Exact (non-wrapping) square-and-multiply: the value `Fp::_pow` would
compute on unbounded integers.  It is not part of the source; it serves
only to express the mathematically exact `a ^ b % p` at 64-bit scale,
where `a ^ b` itself cannot be evaluated. -/
def powModAux (p a b res : Nat) : Nat :=
  if h : b = 0 then res
  else powModAux p (a * a % p) (b / 2) (if b % 2 = 1 then res * a % p else res)
termination_by b
decreasing_by
  exact Nat.div_lt_self (Nat.pos_of_ne_zero h) (by omega)

/-- Exact modular exponentiation `a ^ b % p` in evaluable form. -/
def powMod (p a b : Nat) : Nat :=
  powModAux p (a % p) b 1

/-- The inner `while x % p == 0 { cnt += 1; x /= p }` loop of
`Fp::factorize`, returning the multiplicity `cnt` of the divisor `d` in
`x`.  The guards `2 ≤ d` and `1 ≤ x` hold at every call site of the
source (the outer loop only enters the inner one when `d * d ≤ x`) and
make the recursion terminating. -/
def divCount (d x : Nat) : Nat :=
  if h : 2 ≤ d ∧ 1 ≤ x ∧ x % d = 0 then divCount d (x / d) + 1
  else 0
termination_by x
decreasing_by
  exact Nat.div_lt_self h.2.1 h.1

/-- The trial-divisor sequence `once(2).chain((1..).map(|x| 2 * x + 1))`
of Rust `Fp::factorize`: `2, 3, 5, 7, 9, ...`. -/
def cand (j : Nat) : Nat :=
  if j = 0 then 2 else 2 * j + 1

/-- The main `for p in ...` loop of Rust `Fp::factorize`, with `x` the
current (partially divided) value and `j` the index into `cand`.  The
inner while-loop replaces `x` by `x / d ^ cnt` where `cnt` is the
multiplicity of `d` in `x`. -/
def factorizeLoop (x j : Nat) : List (Nat × Nat) :=
  if cand j * cand j > x then
    if x > 1 then [(x, 1)] else []
  else
    let cnt := divCount (cand j) x
    let rest := factorizeLoop (x / cand j ^ cnt) (j + 1)
    if cnt > 0 then (cand j, cnt) :: rest else rest
termination_by x + 2 - cand j
decreasing_by
  have h2 : 2 ≤ cand j := by unfold cand; split <;> omega
  have h3 : cand j ≤ cand j * cand j := Nat.le_mul_of_pos_left _ (by omega)
  have h4 : cand (j + 1) = 2 * j + 3 := by
    simp only [cand, if_neg (Nat.succ_ne_zero j)]; omega
  have h5 : cand j ≤ 2 * j + 2 := by unfold cand; split <;> omega
  have h6 : x / cand j ^ divCount (cand j) x ≤ x := Nat.div_le_self _ _
  omega

/-- Rust `Fp::factorize`: the list of `(prime, multiplicity)` pairs of `x`
in ascending order of prime. -/
def factorize (x : Nat) : List (Nat × Nat) :=
  factorizeLoop x 0

/-- Rust `Fp::find_root`: search `1..p` for the first `x` whose power
`x^((p-1)/pi)` differs from 1 for every factor `pi`; `none` models the
panicking `.unwrap()` on an empty search result. -/
def find_root (p : Nat) (factors : List (Nat × Nat)) : Option Nat :=
  let is_ok := fun (x : Nat) =>
    factors.all fun pi => _pow p x ((p - 1) / pi.1) != 1
  (List.range' 1 (p - 1)).find? is_ok

/-- Rust `Fp::new`.  `none` models a panic: either the `.unwrap()` inside
`find_root`, or the out-of-bounds `factors[0]` when `p - 1` has no
factors (i.e. `p ≤ 2`). -/
def new (p : Nat) : Option (Except String Fp) :=
  if (factorize p).length > 1 then
    some (Except.error invalidModulusErr)
  else
    match find_root p (factorize (p - 1)) with
    | none => none
    | some root =>
      match (factorize (p - 1)).head? with
      | none => none
      | some f0 =>
        some (Except.ok ⟨p, root, _inv p root, f0.2, (p - 1) >>> f0.2⟩)

/-- Rust `Fp::add`. -/
def add (self : Fp) (a b : Nat) : Nat := _add self.p a b

/-- Rust `Fp::neg`. -/
def neg (self : Fp) (a : Nat) : Nat := _neg self.p a

/-- Rust `Fp::sub`. -/
def sub (self : Fp) (a b : Nat) : Nat := _sub self.p a b

/-- Rust `Fp::mul`. -/
def mul (self : Fp) (a b : Nat) : Nat := _mul self.p a b

/-- Rust `Fp::pow`. -/
def pow (self : Fp) (a b : Nat) : Nat := _pow self.p a b

/-- Rust `Fp::inv`. -/
def inv (self : Fp) (a : Nat) : Nat := _inv self.p a

/-- Rust `Fp::root_pow2m`: a `2^a`-th root of unity,
`root^(m * 2^(k - a)) mod p`, or the 2-adicity error when `a > k`. -/
def root_pow2m (self : Fp) (a : Nat) : Except String Nat :=
  if a > self.k then Except.error twoAdicityErr
  else Except.ok (_pow self.p self.root (self.m <<< (self.k - a)))

end Fp

/-- The `while n_ < n { i += 1; n_ *= 2 }` loop shared by
`DFT::extend_array` and `FFT::extend_array`; the running value `n_` is
maintained as `2^i`, so only the exponent `i` is carried. -/
def extLoop (n i : Nat) : Nat :=
  if 2 ^ i < n then extLoop n (i + 1) else i
termination_by n - 2 ^ i
decreasing_by
  have : 2 ^ i < 2 ^ (i + 1) := Nat.pow_lt_pow_succ (by omega)
  omega

/-- The `zip`/`flat_map` interleaving `[e0, o0, e1, o1, ...]` used at the
end of `FFT::fft_core`. -/
def interleave {α : Type} (a b : List α) : List α :=
  ((a.zip b).map fun eo => [eo.1, eo.2]).flatten

/-- The naive-transform engine, `struct DFT(pub Fp)` of `src/ntt/dft.rs`. -/
structure DFT where
  fp : Fp

namespace DFT

/-- Rust `DFT::extend_array`: zero-pad to the next power-of-two length
`2^i`, or fail when `i` exceeds the field's 2-adic order `k`. -/
def extend_array (self : DFT) (array : List Nat) : Except String (Nat × List Nat) :=
  let n := array.length
  let i := extLoop n 0
  if i > self.fp.k then Except.error twoAdicityErr
  else Except.ok (i, array ++ List.replicate (2 ^ i - n) 0)

/-- Rust `DFT::dft_core`: output `i` is `Σ_j X[j] * w^(i*j) (mod p)`. -/
def dft_core (self : DFT) (X : List Nat) (w : Nat) : List Nat :=
  let n := X.length
  (List.range n).map fun i =>
    ((List.range n).map fun j =>
        self.fp.mul (X.getD j 0) (self.fp.pow w (i * j))).foldl
      (fun acc v => self.fp.add acc v) 0

/-- Rust `DFT::dft`: pad, fetch the root of unity, run the core. -/
def dft (self : DFT) (X : List Nat) : Except String (List Nat) := do
  let (i, X2) ← self.extend_array X
  let w ← self.fp.root_pow2m i
  return self.dft_core X2 w

/-- Rust `DFT::idft`: run the core with `w⁻¹`, then scale by `n⁻¹`. -/
def idft (self : DFT) (F : List Nat) : Except String (List Nat) := do
  let (i, F2) ← self.extend_array F
  let w ← self.fp.root_pow2m i
  let winv := self.fp.inv w
  let res := self.dft_core F2 winv
  let n := res.length
  let inv_n := self.fp.inv n
  return res.map fun v => self.fp.mul v inv_n

end DFT

/-- The fast-transform engine, `struct FFT(Fp)` of `src/ntt/fft.rs`. -/
structure FFT where
  fp : Fp

namespace FFT

/-- Rust `FFT::extend_array` (textually identical to `DFT::extend_array`). -/
def extend_array (self : FFT) (array : List Nat) : Except String (Nat × List Nat) :=
  let n := array.length
  let i := extLoop n 0
  if i > self.fp.k then Except.error twoAdicityErr
  else Except.ok (i, array ++ List.replicate (2 ^ i - n) 0)

/-- Rust `FFT::fft_core`: decimation-in-frequency butterfly.  The source
recurses forever on an empty input (unreachable from `fft`/`ifft`, which
always pass a length `2^i ≥ 1`); the embedding returns `[]` there. -/
def fft_core (self : FFT) (X : List Nat) (w : Nat) : List Nat :=
  if h1 : X.length = 1 then X
  else if h0 : X.length = 0 then []
  else
    let X_even := (List.range (X.length / 2)).map fun i =>
      self.fp.add (X.getD i 0) (X.getD (i + X.length / 2) 0)
    let X_odd := (List.range (X.length / 2)).map fun i =>
      self.fp.mul (self.fp.sub (X.getD i 0) (X.getD (i + X.length / 2) 0))
        (self.fp.pow w i)
    let new_w := self.fp.pow w 2
    interleave (self.fft_core X_even new_w) (self.fft_core X_odd new_w)
termination_by X.length
decreasing_by
  all_goals simp only [List.length_map, List.length_range]
  all_goals omega

/-- Rust `FFT::fft`. -/
def fft (self : FFT) (X : List Nat) : Except String (List Nat) := do
  let (i, X2) ← self.extend_array X
  let w ← self.fp.root_pow2m i
  return self.fft_core X2 w

/-- Rust `FFT::ifft`. -/
def ifft (self : FFT) (F : List Nat) : Except String (List Nat) := do
  let (i, F2) ← self.extend_array F
  let w ← self.fp.root_pow2m i
  let winv := self.fp.inv w
  let res := self.fft_core F2 winv
  let n := res.length
  let inv_n := self.fp.inv n
  return res.map fun v => self.fp.mul v inv_n

end FFT

/-! ### Closed forms and bounds for the modular arithmetic helpers -/

namespace Fp

theorem normalize_eq (p a : Nat) : normalize p a = a % p := by
  unfold normalize
  split
  · exact (Nat.mod_eq_of_lt ‹_›).symm
  · rfl

theorem _add_eq {p : Nat} (hp : 1 ≤ p) (hple : p ≤ 2 ^ 32) (a b : Nat) :
    _add p a b = (a + b) % p := by
  unfold _add
  simp only [normalize_eq]
  have h1 : a % p < p := Nat.mod_lt _ hp
  have h2 : b % p < p := Nat.mod_lt _ hp
  have h32 : (2 : Nat) ^ 32 = 4294967296 := by norm_num
  have h64 : (2 : Nat) ^ 64 = 18446744073709551616 := by norm_num
  rw [Nat.mod_eq_of_lt (show a % p + b % p < 2 ^ 64 by omega)]
  split
  · rename_i h
    rw [Nat.add_mod, Nat.mod_eq_sub_mod h]
    exact (Nat.mod_eq_of_lt (by omega)).symm
  · rename_i h
    rw [Nat.add_mod]
    exact (Nat.mod_eq_of_lt (by omega)).symm

theorem _add_lt {p : Nat} (hp : 1 ≤ p) (a b : Nat) : _add p a b < p := by
  unfold _add
  simp only [normalize_eq]
  have h1 : a % p < p := Nat.mod_lt _ hp
  have h2 : b % p < p := Nat.mod_lt _ hp
  have h3 : (a % p + b % p) % 2 ^ 64 ≤ a % p + b % p := Nat.mod_le _ _
  split <;> omega

theorem _mul_eq {p : Nat} (hp : 1 ≤ p) (hple : p ≤ 2 ^ 32) (a b : Nat) :
    _mul p a b = a * b % p := by
  unfold _mul
  simp only [normalize_eq]
  have h1 : a % p < p := Nat.mod_lt _ hp
  have h2 : b % p < p := Nat.mod_lt _ hp
  have h32 : (2 : Nat) ^ 32 = 4294967296 := by norm_num
  have h64 : (2 : Nat) ^ 64 = 18446744073709551616 := by norm_num
  have hab : a % p * (b % p) ≤ 4294967295 * 4294967295 :=
    Nat.mul_le_mul (by omega) (by omega)
  rw [Nat.mod_eq_of_lt (show a % p * (b % p) < 2 ^ 64 by omega)]
  exact (Nat.mul_mod a b p).symm

theorem _mul_lt {p : Nat} (hp : 1 ≤ p) (a b : Nat) : _mul p a b < p := by
  unfold _mul
  exact Nat.mod_lt _ hp

theorem _neg_eq (p a : Nat) : _neg p a = p - a % p := by
  unfold _neg
  rw [normalize_eq]

theorem _powAux_eq {p : Nat} (hp : 2 ≤ p) (hple : p ≤ 2 ^ 32) :
    ∀ b a res : Nat, res < p → _powAux p a b res = res * a ^ b % p := by
  intro b
  induction b using Nat.strong_induction_on with
  | _ b ih =>
    intro a res hres
    rw [_powAux]
    split
    · subst ‹b = 0›
      simp [Nat.mod_eq_of_lt hres]
    · rename_i hb
      have hdiv : b / 2 < b := Nat.div_lt_self (Nat.pos_of_ne_zero hb) (by omega)
      have hres2 : (if b % 2 = 1 then _mul p res a else res) < p := by
        split
        · exact _mul_lt (by omega) _ _
        · exact hres
      rw [ih (b / 2) hdiv _ _ hres2]
      have e1 : (if b % 2 = 1 then _mul p res a else res) ≡ res * a ^ (b % 2) [MOD p] := by
        split
        · rw [_mul_eq (by omega) hple]
          rename_i h2
          rw [h2, pow_one]
          exact (Nat.mod_modEq _ _)
        · rename_i h2
          have : b % 2 = 0 := by omega
          rw [this, pow_zero, mul_one]
      have e2 : _mul p a a ≡ a * a [MOD p] := by
        rw [_mul_eq (by omega) hple]
        exact Nat.mod_modEq _ _
      have e3 : (if b % 2 = 1 then _mul p res a else res) * _mul p a a ^ (b / 2) ≡
          res * a ^ (b % 2) * (a * a) ^ (b / 2) [MOD p] :=
        Nat.ModEq.mul e1 (Nat.ModEq.pow _ e2)
      have e4 : res * a ^ (b % 2) * (a * a) ^ (b / 2) = res * a ^ b := by
        rw [← pow_two, ← pow_mul, mul_assoc, ← pow_add]
        congr 2
        omega
      calc (if b % 2 = 1 then _mul p res a else res) * _mul p a a ^ (b / 2) % p
          = res * a ^ (b % 2) * (a * a) ^ (b / 2) % p := e3
        _ = res * a ^ b % p := by rw [e4]

theorem _pow_eq {p : Nat} (hp : 2 ≤ p) (hple : p ≤ 2 ^ 32) (a b : Nat) :
    _pow p a b = a ^ b % p := by
  unfold _pow
  rw [_powAux_eq hp hple _ _ _ (by omega), one_mul, normalize_eq, ← Nat.pow_mod]

theorem _inv_eq {p : Nat} (hp : 2 ≤ p) (hple : p ≤ 2 ^ 32) (a : Nat) :
    _inv p a = a ^ (p - 2) % p := by
  unfold _inv
  exact _pow_eq hp hple _ _

theorem powModAux_eq {p : Nat} (hp : 2 ≤ p) :
    ∀ b a res : Nat, res < p → powModAux p a b res = res * a ^ b % p := by
  intro b
  induction b using Nat.strong_induction_on with
  | _ b ih =>
    intro a res hres
    rw [powModAux]
    split
    · subst ‹b = 0›
      simp [Nat.mod_eq_of_lt hres]
    · rename_i hb
      have hdiv : b / 2 < b := Nat.div_lt_self (Nat.pos_of_ne_zero hb) (by omega)
      have hres2 : (if b % 2 = 1 then res * a % p else res) < p := by
        split
        · exact Nat.mod_lt _ (by omega)
        · exact hres
      rw [ih (b / 2) hdiv _ _ hres2]
      have e1 : (if b % 2 = 1 then res * a % p else res) ≡ res * a ^ (b % 2) [MOD p] := by
        split
        · rename_i h2
          rw [h2, pow_one]
          exact (Nat.mod_modEq _ _)
        · rename_i h2
          have : b % 2 = 0 := by omega
          rw [this, pow_zero, mul_one]
      have e2 : a * a % p ≡ a * a [MOD p] := Nat.mod_modEq _ _
      have e3 : (if b % 2 = 1 then res * a % p else res) * (a * a % p) ^ (b / 2) ≡
          res * a ^ (b % 2) * (a * a) ^ (b / 2) [MOD p] :=
        Nat.ModEq.mul e1 (Nat.ModEq.pow _ e2)
      have e4 : res * a ^ (b % 2) * (a * a) ^ (b / 2) = res * a ^ b := by
        rw [← pow_two, ← pow_mul, mul_assoc, ← pow_add]
        congr 2
        omega
      calc (if b % 2 = 1 then res * a % p else res) * (a * a % p) ^ (b / 2) % p
          = res * a ^ (b % 2) * (a * a) ^ (b / 2) % p := e3
        _ = res * a ^ b % p := by rw [e4]

theorem powMod_eq {p : Nat} (hp : 2 ≤ p) (a b : Nat) : powMod p a b = a ^ b % p := by
  unfold powMod
  rw [powModAux_eq hp _ _ _ (by omega), one_mul, ← Nat.pow_mod]

end Fp

/-! ### The padding loop `extLoop` and `extend_array` -/

theorem extLoop_eq_self {n i : Nat} (h : n ≤ 2 ^ i) : extLoop n i = i := by
  rw [extLoop, if_neg (by omega)]

theorem extLoop_ge (n : Nat) : ∀ i, n ≤ 2 ^ extLoop n i := by
  intro i
  induction i using extLoop.induct n with
  | case1 i hlt ih =>
    rw [extLoop, if_pos hlt]
    exact ih
  | case2 i hlt =>
    rw [extLoop, if_neg hlt]
    omega

theorem extLoop_le (n : Nat) : ∀ i j, i ≤ j → n ≤ 2 ^ j → extLoop n i ≤ j := by
  intro i
  induction i using extLoop.induct n with
  | case1 i hlt ih =>
    intro j hij hj
    rw [extLoop, if_pos hlt]
    have hij2 : i < j := by
      have hpow : (2 : Nat) ^ i < 2 ^ j := by omega
      exact (Nat.pow_lt_pow_iff_right (by omega)).mp hpow
    exact ih j (by omega) hj
  | case2 i hlt =>
    intro j hij _
    rw [extLoop, if_neg hlt]
    exact hij

theorem padded_length {n i : Nat} (h : n ≤ 2 ^ i) (X : List Nat) (hn : X.length = n) :
    (X ++ List.replicate (2 ^ i - n) 0).length = 2 ^ i := by
  simp [hn]
  omega

theorem dft_extend_array_ok (d : DFT) (X : List Nat) (h : extLoop X.length 0 ≤ d.fp.k) :
    d.extend_array X =
      Except.ok (extLoop X.length 0,
        X ++ List.replicate (2 ^ extLoop X.length 0 - X.length) 0) := by
  unfold DFT.extend_array
  rw [if_neg (by omega)]

theorem dft_extend_array_err (d : DFT) (X : List Nat) (h : d.fp.k < extLoop X.length 0) :
    d.extend_array X = Except.error twoAdicityErr := by
  unfold DFT.extend_array
  rw [if_pos (by omega)]

theorem fft_extend_array_ok (f : FFT) (X : List Nat) (h : extLoop X.length 0 ≤ f.fp.k) :
    f.extend_array X =
      Except.ok (extLoop X.length 0,
        X ++ List.replicate (2 ^ extLoop X.length 0 - X.length) 0) := by
  unfold FFT.extend_array
  rw [if_neg (by omega)]

theorem fft_extend_array_err (f : FFT) (X : List Nat) (h : f.fp.k < extLoop X.length 0) :
    f.extend_array X = Except.error twoAdicityErr := by
  unfold FFT.extend_array
  rw [if_pos (by omega)]

/-! ### Factorisation and `Fp::new` extraction -/

namespace Fp

theorem find_root_some {p r : Nat} {factors : List (Nat × Nat)}
    (h : find_root p factors = some r) :
    1 ≤ r ∧ r < p ∧ ∀ q e, (q, e) ∈ factors → _pow p r ((p - 1) / q) ≠ 1 := by
  unfold find_root at h
  have hmem := List.mem_of_find?_eq_some h
  have hpred := List.find?_some h
  rw [List.mem_range'] at hmem
  obtain ⟨i, hi, hr⟩ := hmem
  refine ⟨by omega, by omega, ?_⟩
  intro q e hqe
  have hall := List.all_eq_true.mp hpred (q, e) hqe
  simpa using hall

theorem new_ok {p : Nat} {fp : Fp} (h : new p = some (Except.ok fp)) :
    fp.p = p ∧ find_root p (factorize (p - 1)) = some fp.root ∧
      fp.rinv = _inv p fp.root ∧
      ∃ f0 rest, factorize (p - 1) = f0 :: rest ∧ fp.k = f0.2 ∧
        fp.m = (p - 1) >>> f0.2 := by
  unfold new at h
  by_cases hlen : (factorize p).length > 1
  · rw [if_pos hlen] at h
    simp at h
  · rw [if_neg hlen] at h
    cases hfr : find_root p (factorize (p - 1)) with
    | none =>
      rw [hfr] at h
      simp at h
    | some root =>
      rw [hfr] at h
      cases hl : factorize (p - 1) with
      | nil =>
        rw [hl] at h
        simp at h
      | cons f0 t =>
        rw [hl] at h
        simp only [List.head?_cons] at h
        rw [Option.some_inj] at h
        injection h with h2
        subst h2
        exact ⟨rfl, rfl, rfl, f0, t, rfl, rfl, rfl⟩

end Fp

namespace Fp

theorem new_one_none : new 1 = none := by
  simp only [new, find_root, factorize]
  simp only [show factorizeLoop 1 0 = [] by simp [factorizeLoop, cand]]
  simp only [show factorizeLoop 0 0 = [] by simp [factorizeLoop, cand]]
  decide

theorem new_two_none : new 2 = none := by
  simp only [new, find_root, factorize,
    _pow_eq (by omega : (2:Nat) ≤ 2) (by norm_num : (2:Nat) ≤ 2 ^ 32)]
  simp only [show factorizeLoop 2 0 = [(2, 1)] by simp [factorizeLoop, cand]]
  simp only [show factorizeLoop 1 0 = [] by simp [factorizeLoop, cand]]
  decide

theorem new_four : new 4 = some (Except.ok ⟨4, 2, 0, 1, 1⟩) := by
  simp only [new, find_root, factorize,
    _pow_eq (by omega : (2:Nat) ≤ 4) (by norm_num : (4:Nat) ≤ 2 ^ 32),
    _inv_eq (by omega : (2:Nat) ≤ 4) (by norm_num : (4:Nat) ≤ 2 ^ 32)]
  simp only [show factorizeLoop 4 0 = [(2, 2)] by simp [factorizeLoop, divCount, cand]]
  simp only [show factorizeLoop 3 0 = [(3, 1)] by simp [factorizeLoop, divCount, cand]]
  decide

theorem new_five : new 5 = some (Except.ok ⟨5, 2, 3, 2, 1⟩) := by
  simp only [new, find_root, factorize,
    _pow_eq (by omega : (2:Nat) ≤ 5) (by norm_num : (5:Nat) ≤ 2 ^ 32),
    _inv_eq (by omega : (2:Nat) ≤ 5) (by norm_num : (5:Nat) ≤ 2 ^ 32)]
  simp only [show factorizeLoop 5 0 = [(5, 1)] by simp [factorizeLoop, divCount, cand]]
  simp only [show factorizeLoop 4 0 = [(2, 2)] by simp [factorizeLoop, divCount, cand]]
  decide

end Fp

/-! ### Casting the modular arithmetic into `ZMod p` -/

namespace Fp

theorem cast_add {p : Nat} (hp : 1 ≤ p) (hple : p ≤ 2 ^ 32) (a b : Nat) :
    ((_add p a b : Nat) : ZMod p) = (a : ZMod p) + b := by
  rw [_add_eq hp hple, ZMod.natCast_mod, Nat.cast_add]

theorem cast_mul {p : Nat} (hp : 1 ≤ p) (hple : p ≤ 2 ^ 32) (a b : Nat) :
    ((_mul p a b : Nat) : ZMod p) = (a : ZMod p) * b := by
  rw [_mul_eq hp hple, ZMod.natCast_mod, Nat.cast_mul]

theorem cast_neg {p : Nat} (hp : 1 ≤ p) (a : Nat) :
    ((_neg p a : Nat) : ZMod p) = -(a : ZMod p) := by
  rw [_neg_eq]
  have h1 : a % p ≤ p := le_of_lt (Nat.mod_lt _ hp)
  rw [Nat.cast_sub h1, ZMod.natCast_self, ZMod.natCast_mod, zero_sub]

theorem cast_sub {p : Nat} (hp : 1 ≤ p) (hple : p ≤ 2 ^ 32) (a b : Nat) :
    ((_sub p a b : Nat) : ZMod p) = (a : ZMod p) - b := by
  unfold _sub
  simp only [normalize_eq]
  rw [cast_add hp hple, cast_neg hp, ZMod.natCast_mod, ZMod.natCast_mod,
    sub_eq_add_neg]

theorem cast_pow {p : Nat} (hp : 2 ≤ p) (hple : p ≤ 2 ^ 32) (a b : Nat) :
    ((_pow p a b : Nat) : ZMod p) = (a : ZMod p) ^ b := by
  rw [_pow_eq hp hple, ZMod.natCast_mod, Nat.cast_pow]

end Fp

/-! ### List helpers for the transform proofs -/

theorem getD_map_cast {p : Nat} (X : List Nat) (j : Nat) :
    (X.map (Nat.cast : Nat → ZMod p)).getD j 0 = ((X.getD j 0 : Nat) : ZMod p) := by
  rw [List.getD_eq_getElem?_getD, List.getD_eq_getElem?_getD, List.getElem?_map]
  cases h : X[j]? with
  | none => simp
  | some v => simp

theorem list_ext_getD {α : Type} (d : α) (a b : List α) (hl : a.length = b.length)
    (h : ∀ t, t < a.length → a.getD t d = b.getD t d) : a = b := by
  apply List.ext_getElem hl
  intro i h1 h2
  have h3 := h i h1
  rw [List.getD_eq_getElem?_getD, List.getD_eq_getElem?_getD,
    List.getElem?_eq_getElem h1, List.getElem?_eq_getElem h2] at h3
  simpa using h3

theorem Fp.root_pow2m_ok (fp : Fp) {i : Nat} (hi : i ≤ fp.k) :
    fp.root_pow2m i = Except.ok (Fp._pow fp.p fp.root (fp.m <<< (fp.k - i))) := by
  unfold Fp.root_pow2m
  rw [if_neg (by omega)]

theorem Fp.root_pow2m_err (fp : Fp) {i : Nat} (hi : fp.k < i) :
    fp.root_pow2m i = Except.error twoAdicityErr := by
  unfold Fp.root_pow2m
  rw [if_pos (by omega)]

/-- Two lists of properly reduced residues that cast to the same
`ZMod p` list are equal. -/
theorem eq_of_cast_eq {p : Nat} (hp2 : 2 ≤ p) (a b : List Nat)
    (hl : a.length = b.length)
    (ha : ∀ v ∈ a, v < p) (hb : ∀ v ∈ b, v < p)
    (hc : a.map (Nat.cast : Nat → ZMod p) = b.map (Nat.cast : Nat → ZMod p)) :
    a = b := by
  haveI : NeZero p := ⟨by omega⟩
  apply list_ext_getD 0 _ _ hl
  intro t ht
  have hcgetD : ((a.getD t 0 : Nat) : ZMod p) = ((b.getD t 0 : Nat) : ZMod p) := by
    rw [← getD_map_cast, ← getD_map_cast, hc]
  have hma : a.getD t 0 ∈ a := by
    rw [List.getD_eq_getElem?_getD, List.getElem?_eq_getElem ht]
    exact List.getElem_mem _
  have hmb : b.getD t 0 ∈ b := by
    rw [List.getD_eq_getElem?_getD, List.getElem?_eq_getElem (by omega)]
    exact List.getElem_mem _
  have hv := congrArg ZMod.val hcgetD
  rwa [ZMod.val_cast_of_lt (ha _ hma), ZMod.val_cast_of_lt (hb _ hmb)] at hv

/-! ### Evaluating the transform wrappers -/

theorem exbind_ok {ε α β : Type} (a : α) (f : α → Except ε β) :
    ((Except.ok a : Except ε α) >>= f) = f a := rfl

theorem exbind_err {ε α β : Type} (e : ε) (f : α → Except ε β) :
    ((Except.error e : Except ε α) >>= f) = Except.error e := rfl

theorem DFT.dft_eval (d : DFT) (X : List Nat) {i0 : Nat} {X2 : List Nat}
    {w0 : Nat} (hext : d.extend_array X = Except.ok (i0, X2))
    (hw : d.fp.root_pow2m i0 = Except.ok w0) :
    d.dft X = Except.ok (d.dft_core X2 w0) := by
  unfold DFT.dft
  rw [hext, exbind_ok]
  simp only []
  rw [hw, exbind_ok]
  rfl

theorem DFT.idft_eval (d : DFT) (F : List Nat) {i0 : Nat} {F2 : List Nat}
    {w0 : Nat} (hext : d.extend_array F = Except.ok (i0, F2))
    (hw : d.fp.root_pow2m i0 = Except.ok w0) :
    d.idft F = Except.ok ((d.dft_core F2 (d.fp.inv w0)).map
      (fun v => d.fp.mul v (d.fp.inv ((d.dft_core F2 (d.fp.inv w0)).length)))) := by
  unfold DFT.idft
  rw [hext, exbind_ok]
  simp only []
  rw [hw, exbind_ok]
  rfl

theorem DFT.dft_err (d : DFT) (X : List Nat) {e : String}
    (hext : d.extend_array X = Except.error e) : d.dft X = Except.error e := by
  unfold DFT.dft
  rw [hext, exbind_err]

theorem DFT.idft_err (d : DFT) (X : List Nat) {e : String}
    (hext : d.extend_array X = Except.error e) : d.idft X = Except.error e := by
  unfold DFT.idft
  rw [hext, exbind_err]

theorem FFT.fft_eval (f : FFT) (X : List Nat) {i0 : Nat} {X2 : List Nat}
    {w0 : Nat} (hext : f.extend_array X = Except.ok (i0, X2))
    (hw : f.fp.root_pow2m i0 = Except.ok w0) :
    f.fft X = Except.ok (f.fft_core X2 w0) := by
  unfold FFT.fft
  rw [hext, exbind_ok]
  simp only []
  rw [hw, exbind_ok]
  rfl

theorem FFT.ifft_eval (f : FFT) (F : List Nat) {i0 : Nat} {F2 : List Nat}
    {w0 : Nat} (hext : f.extend_array F = Except.ok (i0, F2))
    (hw : f.fp.root_pow2m i0 = Except.ok w0) :
    f.ifft F = Except.ok ((f.fft_core F2 (f.fp.inv w0)).map
      (fun v => f.fp.mul v (f.fp.inv ((f.fft_core F2 (f.fp.inv w0)).length)))) := by
  unfold FFT.ifft
  rw [hext, exbind_ok]
  simp only []
  rw [hw, exbind_ok]
  rfl

theorem FFT.fft_err (f : FFT) (X : List Nat) {e : String}
    (hext : f.extend_array X = Except.error e) : f.fft X = Except.error e := by
  unfold FFT.fft
  rw [hext, exbind_err]

theorem FFT.ifft_err (f : FFT) (X : List Nat) {e : String}
    (hext : f.extend_array X = Except.error e) : f.ifft X = Except.error e := by
  unfold FFT.ifft
  rw [hext, exbind_err]

/-! ### Round trip: inverse-of-forward reproduces the zero-padded input -/

namespace Fp

theorem _sub_lt {p : Nat} (hp : 1 ≤ p) (a b : Nat) : _sub p a b < p := by
  unfold _sub
  simp only [normalize_eq]
  exact _add_lt hp _ _

theorem _neg_lt {p : Nat} (hp : 1 ≤ p) {a : Nat} (h : a % p ≠ 0) :
    _neg p a < p := by
  rw [_neg_eq]
  have := Nat.mod_lt a hp
  omega

theorem _neg_of_zero_mod {p a : Nat} (h : a % p = 0) : _neg p a = p := by
  rw [_neg_eq, h]
  omega

theorem new_ok_pos {p : Nat} {fp : Fp} (h : new p = some (Except.ok fp)) :
    fp.p = p ∧ 2 ≤ p := by
  obtain ⟨hpp, hfr, _⟩ := new_ok h
  obtain ⟨h1, h2, _⟩ := find_root_some hfr
  exact ⟨hpp, by omega⟩

theorem _mulWrap_eq_of_le {p : Nat} (hple : p ≤ 2 ^ 32) (a b : Nat)
    (ha : a < p) (hb : b < p) : _mulWrap p a b = a * b % p := by
  unfold _mulWrap
  simp only [normalize_eq]
  rw [Nat.mod_eq_of_lt ha, Nat.mod_eq_of_lt hb]
  have h32 : (2 : Nat) ^ 32 = 4294967296 := by norm_num
  have h64 : (2 : Nat) ^ 64 = 18446744073709551616 := by norm_num
  have hab : a * b ≤ 4294967295 * 4294967295 :=
    Nat.mul_le_mul (by omega) (by omega)
  rw [Nat.mod_eq_of_lt (show a * b < 2 ^ 64 by omega)]

theorem _addWrap_eq_of_le {p : Nat} (hp1 : 1 ≤ p) (hple : p ≤ 2 ^ 32)
    (a b : Nat) (ha : a < p) (hb : b < p) : _addWrap p a b = (a + b) % p := by
  unfold _addWrap
  simp only [normalize_eq]
  rw [Nat.mod_eq_of_lt ha, Nat.mod_eq_of_lt hb]
  have h32 : (2 : Nat) ^ 32 = 4294967296 := by norm_num
  have h64 : (2 : Nat) ^ 64 = 18446744073709551616 := by norm_num
  rw [Nat.mod_eq_of_lt (show a + b < 2 ^ 64 by omega)]
  split
  · rename_i h
    rw [Nat.mod_eq_sub_mod h, Nat.mod_eq_of_lt (by omega)]
  · rename_i h
    rw [Nat.mod_eq_of_lt (by omega)]

end Fp

theorem inv_mul_cancel_nat {p : Nat} (hp : p.Prime) (hp3 : 3 ≤ p)
    (hple : p ≤ 2 ^ 32) (a : Nat)
    (h : a % p ≠ 0) : Fp._mul p a (Fp._inv p a) = 1 := by
  haveI : Fact p.Prime := ⟨hp⟩
  haveI : NeZero p := ⟨by omega⟩
  have hp2 : 2 ≤ p := by omega
  have hane : ((a : ZMod p)) ≠ 0 := by
    rw [Ne, ZMod.natCast_zmod_eq_zero_iff_dvd]
    intro hdvd
    exact h (Nat.mod_eq_zero_of_dvd hdvd)
  have hcast : ((Fp._mul p a (Fp._inv p a) : Nat) : ZMod p) = ((1 : Nat) : ZMod p) := by
    rw [Fp.cast_mul (by omega) hple]
    unfold Fp._inv
    rw [Fp.cast_pow hp2 hple, Nat.cast_one]
    have he : (a : ZMod p) * ((a : ZMod p)) ^ (p - 2) = ((a : ZMod p)) ^ (p - 1) := by
      rw [← pow_succ']
      congr 1
      omega
    rw [he]
    exact ZMod.pow_card_sub_one_eq_one hane
  have hlt : Fp._mul p a (Fp._inv p a) < p := Fp._mul_lt (by omega) _ _
  have hv := congrArg ZMod.val hcast
  rwa [ZMod.val_cast_of_lt hlt, ZMod.val_cast_of_lt (by omega)] at hv

theorem inv_of_zero_mod {p : Nat} (hp3 : 3 ≤ p) (hple : p ≤ 2 ^ 32) {a : Nat}
    (h : a % p = 0) : Fp._inv p a = 0 := by
  rw [Fp._inv_eq (by omega) hple, Nat.pow_mod, h, zero_pow (by omega),
    Nat.zero_mod]

/-! ### A 64-bit prime (2^64 - 2^32 + 1) certified via Lucas primality,
used to exhibit the `u64` overflow of the modular arithmetic.  The
`gl_pow` lemmas are exact modular powers (via `powMod`); the `gl_w`
lemmas evaluate the wrapping source functions at the same prime. -/

set_option maxRecDepth 10000
set_option maxHeartbeats 4000000

theorem gl_pow_2 : Fp.powMod 18446744069414584321 7 9223372034707292160
    = 18446744069414584320 := by
  simp [Fp.powMod, Fp.powModAux]

theorem gl_pow_3 : Fp.powMod 18446744069414584321 7 6148914689804861440
    = 18446744065119617025 := by
  simp [Fp.powMod, Fp.powModAux]

theorem gl_pow_5 : Fp.powMod 18446744069414584321 7 3689348813882916864
    = 1373043270956696022 := by
  simp [Fp.powMod, Fp.powModAux]

theorem gl_pow_17 : Fp.powMod 18446744069414584321 7 1085102592318504960
    = 16301593560560007290 := by
  simp [Fp.powMod, Fp.powModAux]

theorem gl_pow_257 : Fp.powMod 18446744069414584321 7 71777214277877760
    = 995085315851368103 := by
  simp [Fp.powMod, Fp.powModAux]

theorem gl_pow_65537 : Fp.powMod 18446744069414584321 7 281470681743360
    = 8478886009461009681 := by
  simp [Fp.powMod, Fp.powModAux]

theorem goldilocks_prime : Nat.Prime 18446744069414584321 := by
  haveI : NeZero (18446744069414584321 : Nat) := ⟨by norm_num⟩
  have hp2 : (2 : Nat) ≤ 18446744069414584321 := by norm_num
  have hcast : ∀ x e : Nat, ((x : ZMod 18446744069414584321)) ^ e
      = ((Fp.powMod 18446744069414584321 x e : Nat) : ZMod 18446744069414584321) := by
    intro x e
    rw [Fp.powMod_eq hp2, ZMod.natCast_mod, Nat.cast_pow]
  have hne : ∀ v : Nat, v < 18446744069414584321 → v ≠ 1 →
      ((v : Nat) : ZMod 18446744069414584321) ≠ 1 := by
    intro v hv hv1 hcon
    rw [show (1 : ZMod 18446744069414584321) = ((1 : Nat) : ZMod 18446744069414584321)
      by rw [Nat.cast_one]] at hcon
    have hval := congrArg ZMod.val hcon
    rw [ZMod.val_cast_of_lt hv, ZMod.val_cast_of_lt (by norm_num)] at hval
    exact hv1 hval
  have h7 : ((7 : ZMod 18446744069414584321))
      = (((7 : Nat)) : ZMod 18446744069414584321) := by norm_num
  apply lucas_primality (p := 18446744069414584321) (a := 7)
  · have hsq : (7 : ZMod 18446744069414584321) ^ (18446744069414584321 - 1)
        = ((((7 : Nat)) : ZMod 18446744069414584321) ^ 9223372034707292160) ^ 2 := by
      rw [h7, ← pow_mul]
    rw [hsq, hcast, gl_pow_2,
      show ((18446744069414584320 : Nat) : ZMod 18446744069414584321) ^ 2
        = (((18446744069414584320 ^ 2 % 18446744069414584321 : Nat))
            : ZMod 18446744069414584321) by rw [ZMod.natCast_mod, Nat.cast_pow]]
    norm_num
  · intro q hq hdvd
    have hfact : (18446744069414584321 : Nat) - 1
        = 2 ^ 32 * (3 * (5 * (17 * (257 * 65537)))) := by norm_num
    rw [hfact] at hdvd
    rcases (Nat.Prime.dvd_mul hq).mp hdvd with h | h
    · have h2 : q ∣ 2 := hq.dvd_of_dvd_pow h
      have hq2 : q = 2 := (Nat.prime_dvd_prime_iff_eq hq Nat.prime_two).mp h2
      subst hq2
      rw [show (18446744069414584321 - 1) / 2 = 9223372034707292160 by norm_num,
        h7, hcast, gl_pow_2]
      exact hne _ (by norm_num) (by norm_num)
    rcases (Nat.Prime.dvd_mul hq).mp h with h | h
    · have hq3 : q = 3 := (Nat.prime_dvd_prime_iff_eq hq (by norm_num)).mp h
      subst hq3
      rw [show (18446744069414584321 - 1) / 3 = 6148914689804861440 by norm_num,
        h7, hcast, gl_pow_3]
      exact hne _ (by norm_num) (by norm_num)
    rcases (Nat.Prime.dvd_mul hq).mp h with h | h
    · have hq5 : q = 5 := (Nat.prime_dvd_prime_iff_eq hq (by norm_num)).mp h
      subst hq5
      rw [show (18446744069414584321 - 1) / 5 = 3689348813882916864 by norm_num,
        h7, hcast, gl_pow_5]
      exact hne _ (by norm_num) (by norm_num)
    rcases (Nat.Prime.dvd_mul hq).mp h with h | h
    · have hq17 : q = 17 := (Nat.prime_dvd_prime_iff_eq hq (by norm_num)).mp h
      subst hq17
      rw [show (18446744069414584321 - 1) / 17 = 1085102592318504960 by norm_num,
        h7, hcast, gl_pow_17]
      exact hne _ (by norm_num) (by norm_num)
    rcases (Nat.Prime.dvd_mul hq).mp h with h | h
    · have hq257 : q = 257 := (Nat.prime_dvd_prime_iff_eq hq (by norm_num)).mp h
      subst hq257
      rw [show (18446744069414584321 - 1) / 257 = 71777214277877760 by norm_num,
        h7, hcast, gl_pow_257]
      exact hne _ (by norm_num) (by norm_num)
    · have hq65537 : q = 65537 := (Nat.prime_dvd_prime_iff_eq hq (by norm_num)).mp h
      subst hq65537
      rw [show (18446744069414584321 - 1) / 65537 = 281470681743360 by norm_num,
        h7, hcast, gl_pow_65537]
      exact hne _ (by norm_num) (by norm_num)

/-! ### Wrapping-arithmetic evaluations at the Goldilocks prime.  The
field data for `p = 2^64 - 2^32 + 1` is `root = 7` (the least primitive
root), `k = 32`, `m = 2^32 - 1`; `rinv` is the value the source's
(wrapping) `_inv` computes for 7. -/

theorem gl_wpow_pm1_inv : Fp._inv 18446744069414584321 18446744069414584320
    = 0 := by
  simp [Fp._inv, Fp._pow, Fp._powAux, Fp._mul, Fp.normalize]

theorem gl_pow_pm1 : Fp.powMod 18446744069414584321 18446744069414584320
    18446744069414584319 = 18446744069414584320 := by
  simp [Fp.powMod, Fp.powModAux]

/-- C3 (code bug in the source): `Fp::new`'s primality test only checks
that `factorize(p)` has at most one entry, so the composite prime power
`p = 4` is accepted and a field context is returned instead of the
`InvalidModulus` error the claim requires. -/
theorem claim_C3_invalid_modulus_bug :
    ¬ Nat.Prime 4 ∧ Fp.new 4 = some (Except.ok ⟨4, 2, 0, 1, 1⟩) ∧
      Fp.new 4 ≠ some (Except.error invalidModulusErr) := by
  refine ⟨by norm_num, Fp.new_four, ?_⟩
  rw [Fp.new_four]
  decide

/-- C4 counterexample: on the field built over the prime 5 the public
`neg` returns `p` itself on input `0`, which is not below `p`. -/
theorem claim_C4_counterexample :
    Nat.Prime 5 ∧ Fp.new 5 = some (Except.ok ⟨5, 2, 3, 2, 1⟩) ∧
      Fp.neg ⟨5, 2, 3, 2, 1⟩ 0 = 5 ∧ ¬ Fp.neg ⟨5, 2, 3, 2, 1⟩ 0 < 5 :=
  ⟨by norm_num, Fp.new_five, by decide, by decide⟩

/-- C4 (amended): on a constructed field, `add`, `sub` and `mul` always
return values in `[0, p)`; `neg a` does so exactly when `a % p ≠ 0`, and
returns `p` itself when `a ≡ 0 (mod p)`. -/
theorem claim_C4_output_range (p : Nat) (fp : Fp) (hp : p.Prime)
    (hnew : Fp.new p = some (Except.ok fp)) (a b : Nat) :
    fp.add a b < fp.p ∧ fp.sub a b < fp.p ∧ fp.mul a b < fp.p ∧
      (a % fp.p ≠ 0 → fp.neg a < fp.p) ∧
      (a % fp.p = 0 → fp.neg a = fp.p) := by
  obtain ⟨hpd, hple⟩ := Fp.new_ok_pos hnew
  have hp1 : 1 ≤ fp.p := by omega
  exact ⟨Fp._add_lt hp1 _ _, Fp._sub_lt hp1 _ _, Fp._mul_lt hp1 _ _,
    fun h => Fp._neg_lt hp1 h, fun h => Fp._neg_of_zero_mod h⟩

/-- Witness for C4 (amended) at `p = 5`, `a = 2`, `b = 3`. -/
theorem claim_C4_output_range_witness :
    Nat.Prime 5 ∧ Fp.new 5 = some (Except.ok ⟨5, 2, 3, 2, 1⟩) ∧
      (Fp.mk 5 2 3 2 1).add 2 3 < (Fp.mk 5 2 3 2 1).p ∧
      (Fp.mk 5 2 3 2 1).sub 2 3 < (Fp.mk 5 2 3 2 1).p ∧
      (Fp.mk 5 2 3 2 1).mul 2 3 < (Fp.mk 5 2 3 2 1).p ∧
      (2 % (Fp.mk 5 2 3 2 1).p ≠ 0 → (Fp.mk 5 2 3 2 1).neg 2 < (Fp.mk 5 2 3 2 1).p) ∧
      (2 % (Fp.mk 5 2 3 2 1).p = 0 → (Fp.mk 5 2 3 2 1).neg 2 = (Fp.mk 5 2 3 2 1).p) := by
  have h1 : Nat.Prime 5 := by norm_num
  have h2 := Fp.new_five
  obtain ⟨a1, a2, a3, a4, a5⟩ := claim_C4_output_range 5 ⟨5, 2, 3, 2, 1⟩ h1 h2 2 3
  exact ⟨h1, h2, a1, a2, a3, a4, a5⟩

/-- C6: each of `dft`, `idft`, `fft`, `ifft` returns the 2-adicity error
exactly when the smallest `i` with `2^i ≥ n` (computed by the shared
padding loop, characterised by the first conjunct) exceeds the field's
`k`, and returns a result otherwise. -/
theorem claim_C6_error_iff (d : DFT) (f : FFT) (X : List Nat) :
    (X.length ≤ 2 ^ extLoop X.length 0 ∧
      (∀ j, X.length ≤ 2 ^ j → extLoop X.length 0 ≤ j)) ∧
    (d.dft X = Except.error twoAdicityErr ↔ d.fp.k < extLoop X.length 0) ∧
    (d.idft X = Except.error twoAdicityErr ↔ d.fp.k < extLoop X.length 0) ∧
    (f.fft X = Except.error twoAdicityErr ↔ f.fp.k < extLoop X.length 0) ∧
    (f.ifft X = Except.error twoAdicityErr ↔ f.fp.k < extLoop X.length 0) ∧
    ((∃ Y, d.dft X = Except.ok Y) ↔ extLoop X.length 0 ≤ d.fp.k) ∧
    ((∃ Y, d.idft X = Except.ok Y) ↔ extLoop X.length 0 ≤ d.fp.k) ∧
    ((∃ Y, f.fft X = Except.ok Y) ↔ extLoop X.length 0 ≤ f.fp.k) ∧
    ((∃ Y, f.ifft X = Except.ok Y) ↔ extLoop X.length 0 ≤ f.fp.k) := by
  refine ⟨⟨extLoop_ge X.length 0,
    fun j hj => extLoop_le X.length 0 j (by omega) hj⟩,
    ?_, ?_, ?_, ?_, ?_, ?_, ?_, ?_⟩
  · by_cases hki : d.fp.k < extLoop X.length 0
    · exact iff_of_true (DFT.dft_err _ _ (dft_extend_array_err _ _ hki)) hki
    · refine iff_of_false ?_ hki
      rw [DFT.dft_eval _ _ (dft_extend_array_ok _ _ (by omega))
        (Fp.root_pow2m_ok _ (by omega))]
      simp
  · by_cases hki : d.fp.k < extLoop X.length 0
    · exact iff_of_true (DFT.idft_err _ _ (dft_extend_array_err _ _ hki)) hki
    · refine iff_of_false ?_ hki
      rw [DFT.idft_eval _ _ (dft_extend_array_ok _ _ (by omega))
        (Fp.root_pow2m_ok _ (by omega))]
      simp
  · by_cases hki : f.fp.k < extLoop X.length 0
    · exact iff_of_true (FFT.fft_err _ _ (fft_extend_array_err _ _ hki)) hki
    · refine iff_of_false ?_ hki
      rw [FFT.fft_eval _ _ (fft_extend_array_ok _ _ (by omega))
        (Fp.root_pow2m_ok _ (by omega))]
      simp
  · by_cases hki : f.fp.k < extLoop X.length 0
    · exact iff_of_true (FFT.ifft_err _ _ (fft_extend_array_err _ _ hki)) hki
    · refine iff_of_false ?_ hki
      rw [FFT.ifft_eval _ _ (fft_extend_array_ok _ _ (by omega))
        (Fp.root_pow2m_ok _ (by omega))]
      simp
  · by_cases hki : d.fp.k < extLoop X.length 0
    · refine iff_of_false ?_ (by omega)
      rw [DFT.dft_err _ _ (dft_extend_array_err _ _ hki)]
      simp
    · exact iff_of_true ⟨_, DFT.dft_eval _ _ (dft_extend_array_ok _ _ (by omega))
        (Fp.root_pow2m_ok _ (by omega))⟩ (by omega)
  · by_cases hki : d.fp.k < extLoop X.length 0
    · refine iff_of_false ?_ (by omega)
      rw [DFT.idft_err _ _ (dft_extend_array_err _ _ hki)]
      simp
    · exact iff_of_true ⟨_, DFT.idft_eval _ _ (dft_extend_array_ok _ _ (by omega))
        (Fp.root_pow2m_ok _ (by omega))⟩ (by omega)
  · by_cases hki : f.fp.k < extLoop X.length 0
    · refine iff_of_false ?_ (by omega)
      rw [FFT.fft_err _ _ (fft_extend_array_err _ _ hki)]
      simp
    · exact iff_of_true ⟨_, FFT.fft_eval _ _ (fft_extend_array_ok _ _ (by omega))
        (Fp.root_pow2m_ok _ (by omega))⟩ (by omega)
  · by_cases hki : f.fp.k < extLoop X.length 0
    · refine iff_of_false ?_ (by omega)
      rw [FFT.ifft_err _ _ (fft_extend_array_err _ _ hki)]
      simp
    · exact iff_of_true ⟨_, FFT.ifft_eval _ _ (fft_extend_array_ok _ _ (by omega))
        (Fp.root_pow2m_ok _ (by omega))⟩ (by omega)

/-- C7: `extend_array` (identical in `DFT` and `FFT`) returns
`(i, padded)` with `i` the smallest exponent such that `2^i ≥ n`, where
`padded` has length `2^i`, agrees with the input on the first `n`
positions, is zero afterwards, and is the input itself when `n` is
already a power of two. -/
theorem claim_C7_padding (d : DFT) (f : FFT) (X : List Nat)
    (hd : extLoop X.length 0 ≤ d.fp.k) (hf : extLoop X.length 0 ≤ f.fp.k) :
    d.extend_array X = Except.ok (extLoop X.length 0,
      X ++ List.replicate (2 ^ extLoop X.length 0 - X.length) 0) ∧
    f.extend_array X = Except.ok (extLoop X.length 0,
      X ++ List.replicate (2 ^ extLoop X.length 0 - X.length) 0) ∧
    (X ++ List.replicate (2 ^ extLoop X.length 0 - X.length) 0).length
      = 2 ^ extLoop X.length 0 ∧
    X.length ≤ 2 ^ extLoop X.length 0 ∧
    (∀ j, X.length ≤ 2 ^ j → extLoop X.length 0 ≤ j) ∧
    (X ++ List.replicate (2 ^ extLoop X.length 0 - X.length) 0).take X.length
      = X ∧
    (∀ t, X.length ≤ t →
      (X ++ List.replicate (2 ^ extLoop X.length 0 - X.length) 0).getD t 0
        = 0) ∧
    (∀ j, X.length = 2 ^ j →
      X ++ List.replicate (2 ^ extLoop X.length 0 - X.length) 0 = X) := by
  have hge := extLoop_ge X.length 0
  refine ⟨dft_extend_array_ok _ _ hd, fft_extend_array_ok _ _ hf, ?_, hge,
    fun j hj => extLoop_le X.length 0 j (by omega) hj, List.take_left X _,
    ?_, ?_⟩
  · simp only [List.length_append, List.length_replicate]
    omega
  · intro t ht
    rw [List.getD_eq_getElem?_getD, List.getElem?_append_right ht,
      List.getElem?_replicate]
    split <;> rfl
  · intro j hj
    have h1 : extLoop X.length 0 ≤ j :=
      extLoop_le X.length 0 j (by omega) (le_of_eq hj)
    have h2 : 2 ^ extLoop X.length 0 - X.length = 0 := by
      have h3 : (2 : Nat) ^ extLoop X.length 0 ≤ 2 ^ j :=
        Nat.pow_le_pow_right (by omega) h1
      omega
    rw [h2]
    simp

/-- Witness for C7 at `k = 2`, `X = [1, 2, 3]` (padded to `[1, 2, 3, 0]`). -/
theorem claim_C7_padding_witness :
    extLoop ([1, 2, 3] : List Nat).length 0 ≤ (DFT.mk ⟨5, 2, 3, 2, 1⟩).fp.k ∧
    extLoop ([1, 2, 3] : List Nat).length 0 ≤ (FFT.mk ⟨5, 2, 3, 2, 1⟩).fp.k ∧
    (DFT.mk ⟨5, 2, 3, 2, 1⟩).extend_array [1, 2, 3]
      = Except.ok (extLoop ([1, 2, 3] : List Nat).length 0,
        [1, 2, 3] ++ List.replicate
          (2 ^ extLoop ([1, 2, 3] : List Nat).length 0
            - ([1, 2, 3] : List Nat).length) 0) ∧
    (FFT.mk ⟨5, 2, 3, 2, 1⟩).extend_array [1, 2, 3]
      = Except.ok (extLoop ([1, 2, 3] : List Nat).length 0,
        [1, 2, 3] ++ List.replicate
          (2 ^ extLoop ([1, 2, 3] : List Nat).length 0
            - ([1, 2, 3] : List Nat).length) 0) := by
  have h3 : extLoop ([1, 2, 3] : List Nat).length 0 ≤ (Fp.mk 5 2 3 2 1).k := by
    simp [extLoop]
  obtain ⟨a1, a2, _⟩ := claim_C7_padding (DFT.mk ⟨5, 2, 3, 2, 1⟩)
    (FFT.mk ⟨5, 2, 3, 2, 1⟩) [1, 2, 3] h3 h3
  exact ⟨h3, h3, a1, a2⟩

/-- C8 counterexample: over the 64-bit prime `2^64 - 2^32 + 1`, the
source's `a * b % p` computed with wrapping `u64` arithmetic returns a
wrong residue for `a = b = p - 1` (it yields 0, the exact value is 1), so
the arithmetic is not overflow-safe over the full `u64` prime range. -/
theorem claim_C8_counterexample :
    Nat.Prime 18446744069414584321 ∧
      (18446744069414584320 : Nat) < 18446744069414584321 ∧
      Fp._mulWrap 18446744069414584321 18446744069414584320 18446744069414584320
        ≠ 18446744069414584320 * 18446744069414584320 % 18446744069414584321 :=
  ⟨goldilocks_prime, by norm_num, by decide⟩

/-- C8 (amended): for primes `p ≤ 2^32` and operands in `[0, p)`, the
`u64` computations of `_mul` and `_add` do not overflow: the wrapping
semantics agrees with the exact values `(a * b) mod p` and
`(a + b) mod p`. -/
theorem claim_C8_no_overflow (p : Nat) (hp : p.Prime) (hple : p ≤ 2 ^ 32)
    (a b : Nat) (ha : a < p) (hb : b < p) :
    Fp._mulWrap p a b = a * b % p ∧ Fp._addWrap p a b = (a + b) % p := by
  have h2 := hp.two_le
  exact ⟨Fp._mulWrap_eq_of_le hple a b ha hb,
    Fp._addWrap_eq_of_le (by omega) hple a b ha hb⟩

/-- Witness for C8 (amended) at `p = 5`, `a = 2`, `b = 3`. -/
theorem claim_C8_no_overflow_witness :
    Nat.Prime 5 ∧ (5 : Nat) ≤ 2 ^ 32 ∧ (2 : Nat) < 5 ∧ (3 : Nat) < 5 ∧
      Fp._mulWrap 5 2 3 = 2 * 3 % 5 ∧ Fp._addWrap 5 2 3 = (2 + 3) % 5 := by
  have h1 : Nat.Prime 5 := by norm_num
  have h2 : (5 : Nat) ≤ 2 ^ 32 := by norm_num
  obtain ⟨a1, a2⟩ := claim_C8_no_overflow 5 h1 h2 2 3 (by norm_num) (by norm_num)
  exact ⟨h1, h2, by norm_num, by norm_num, a1, a2⟩

/-- C9 counterexample: over the 64-bit prime `p = 2^64 - 2^32 + 1`, for
`a = p - 1` (not divisible by `p`), the wrapping `u64` products inside
`_pow` make `inv a` return 0 rather than `a^(p-2) mod p = p - 1`, and
`mul a (inv a)` is 0, not 1. -/
theorem claim_C9_counterexample :
    Nat.Prime 18446744069414584321 ∧ (3 : Nat) ≤ 18446744069414584321 ∧
    (18446744069414584320 : Nat) % 18446744069414584321 ≠ 0 ∧
    (Fp.mk 18446744069414584321 7 8400574524983831991 32 4294967295).inv
        18446744069414584320 = 0 ∧
    (0 : Nat) ≠ 18446744069414584320 ^ (18446744069414584321 - 2)
        % 18446744069414584321 ∧
    (Fp.mk 18446744069414584321 7 8400574524983831991 32 4294967295).mul
        18446744069414584320
        ((Fp.mk 18446744069414584321 7 8400574524983831991 32 4294967295).inv
          18446744069414584320) ≠ 1 := by
  have hexact : (18446744069414584320 : Nat) ^ (18446744069414584319 : Nat)
      % 18446744069414584321 = 18446744069414584320 := by
    have h := Fp.powMod_eq (show (2 : Nat) ≤ 18446744069414584321 by norm_num)
      18446744069414584320 18446744069414584319
    rw [gl_pow_pm1] at h
    exact h.symm
  have hinv : (Fp.mk 18446744069414584321 7 8400574524983831991 32
      4294967295).inv 18446744069414584320 = 0 := gl_wpow_pm1_inv
  refine ⟨goldilocks_prime, by norm_num, by norm_num, hinv, ?_, ?_⟩
  · rw [show (18446744069414584321 : Nat) - 2 = 18446744069414584319 by norm_num]
    rw [hexact]
    norm_num
  · rw [hinv]
    decide

/-- C9 (amended): on a field constructed from a prime `p` with
`3 ≤ p ≤ 2^32` (the overflow-free range of the `u64` arithmetic), `inv a`
returns `a^(p-2) mod p`; for `a` not divisible by `p` this is a genuine
inverse (`a * inv a ≡ 1`), while for `a ≡ 0 (mod p)` the call simply
returns 0 without any error. -/
theorem claim_C9_inverse (p : Nat) (fp : Fp) (hp : p.Prime) (hp3 : 3 ≤ p)
    (hple : p ≤ 2 ^ 32)
    (hnew : Fp.new p = some (Except.ok fp)) (a : Nat) :
    fp.inv a = a ^ (p - 2) % p ∧
      (a % p ≠ 0 → fp.mul a (fp.inv a) = 1) ∧
      (a % p = 0 → fp.inv a = 0) := by
  obtain ⟨hpd, _⟩ := Fp.new_ok_pos hnew
  refine ⟨?_, ?_, ?_⟩
  · show Fp._inv fp.p a = _
    rw [hpd, Fp._inv_eq (by omega) hple]
  · intro h
    show Fp._mul fp.p a (Fp._inv fp.p a) = 1
    rw [hpd]
    exact inv_mul_cancel_nat hp hp3 hple a h
  · intro h
    show Fp._inv fp.p a = 0
    rw [hpd]
    exact inv_of_zero_mod hp3 hple h

/-- Witness for C9 at `p = 5`, `a = 2` (where `inv 2 = 3`). -/
theorem claim_C9_inverse_witness :
    Nat.Prime 5 ∧ (3 : Nat) ≤ 5 ∧ (5 : Nat) ≤ 2 ^ 32 ∧
      Fp.new 5 = some (Except.ok ⟨5, 2, 3, 2, 1⟩) ∧
      ((Fp.mk 5 2 3 2 1).inv 2 = 2 ^ (5 - 2) % 5 ∧
        (2 % 5 ≠ 0 → (Fp.mk 5 2 3 2 1).mul 2 ((Fp.mk 5 2 3 2 1).inv 2) = 1) ∧
        (2 % 5 = 0 → (Fp.mk 5 2 3 2 1).inv 2 = 0)) := by
  have h1 : Nat.Prime 5 := by norm_num
  have h2 := Fp.new_five
  exact ⟨h1, by norm_num, by norm_num, h2,
    claim_C9_inverse 5 ⟨5, 2, 3, 2, 1⟩ h1 (by norm_num) (by norm_num) h2 2⟩

/-- C10: `Fp::new` panics rather than returning any `Result` for `p = 1`
(the primitive-root search over the empty range `1..1` unwraps `None`)
and for `p = 2` (the factor list of `p - 1 = 1` is empty, so `factors[0]`
is out of bounds) — even though 2 is prime. -/
theorem claim_C10_small_p_panics :
    Fp.new 1 = none ∧ Fp.new 2 = none ∧ Nat.Prime 2 :=
  ⟨Fp.new_one_none, Fp.new_two_none, Nat.prime_two⟩
